import Mathlib

/-!
Verification development for the `etl_taxi_trips` pipeline
(`src/dags/etl_taxi_trips.py`) and the minimal workflow-orchestration
engine its specification describes.

The repository itself contains only the declarative pipeline file: the
task declarations, their configurations (templated strings pulling the
staging path), and the dependency edges.  Those are embedded below
directly from the source.  The orchestration engine (task-graph
validation, scheduler state machine, run context, sensor runner,
resource lifecycle) is not part of the repository's source; following
the specification, those components are modelled from the spec's
contracts, with each such definition marked `Modelled from the spec`.
-/

set_option maxRecDepth 8000

namespace Etl

/-- The fourteen tasks declared in `src/dags/etl_taxi_trips.py`,
named by their `task_id` strings. -/
inductive Task
  | staging
  | wait_for_verifone
  | wait_for_cmt
  | download_verifone
  | download_cmt
  | unzip_cmt
  | unzip_verifone
  | download_hexbins
  | merge_and_norm
  | load_raw
  | fuzzy_time_and_loc
  | anonymize
  | load_public
  | cleanup_staging
  deriving DecidableEq, Fintype

/-- All tasks of the pipeline, in declaration order of the source file. -/
def allTasks : List Task :=
  [.staging, .wait_for_verifone, .wait_for_cmt, .download_verifone,
   .download_cmt, .unzip_cmt, .unzip_verifone, .download_hexbins,
   .merge_and_norm, .load_raw, .fuzzy_time_and_loc, .anonymize,
   .load_public, .cleanup_staging]

/-- The dependency edges declared by the `>>` statements at the bottom of
`src/dags/etl_taxi_trips.py` (lines 141-147), in source order. -/
def pipelineEdges : List (Task × Task) :=
  [(.staging, .wait_for_cmt), (.wait_for_cmt, .download_cmt),
   (.download_cmt, .unzip_cmt), (.unzip_cmt, .merge_and_norm),
   (.staging, .wait_for_verifone), (.wait_for_verifone, .download_verifone),
   (.download_verifone, .unzip_verifone), (.unzip_verifone, .merge_and_norm),
   (.merge_and_norm, .load_raw), (.load_raw, .anonymize),
   (.merge_and_norm, .download_hexbins),
   (.download_hexbins, .fuzzy_time_and_loc),
   (.fuzzy_time_and_loc, .anonymize),
   (.anonymize, .load_public), (.load_public, .cleanup_staging)]

/-- Direct upstream tasks of `t` in the pipeline graph. -/
def upstreams (t : Task) : List Task :=
  (pipelineEdges.filter (fun e => e.2 = t)).map (·.1)

/-- Direct downstream tasks of `t` in the pipeline graph. -/
def downstreams (t : Task) : List Task :=
  (pipelineEdges.filter (fun e => e.1 = t)).map (·.2)

/-- One piece of a templated configuration string: either a literal
substring, or a reference `ref(task, key)` to a Run-Context entry (the
source writes these as Jinja `xcom_pull` expressions). -/
inductive TemplatePart
  | lit (s : String)
  | ref (task key : String)
  deriving DecidableEq

/-- A templated configuration value, as the parsed sequence of its parts. -/
abbrev Template := List TemplatePart

/-- The staging-path reference appearing throughout the source as
`ti.xcom_pull("staging")`; per the spec (§4.4), the `CreateWorkspace`
task publishes the workspace path to the Run Context under key `path`. -/
def stagingRef : TemplatePart := .ref "staging" "path"

/-- Configuration of a `DatumLoadOperator` as declared in the source:
a templated CSV path, a connection id and a destination table name. -/
structure DatumLoadConfig where
  csv_path : Template
  db_conn_id : String
  db_table_name : String
  deriving DecidableEq

/-- The `load_raw` operator declaration (source lines 106-110). -/
def load_raw_config : DatumLoadConfig :=
  { csv_path := [stagingRef, .lit "/merged_trips.csv"]
    db_conn_id := "phl-warehouse-staging"
    db_table_name := "taxi_trips" }

/-- The `load_public` operator declaration (source lines 127-131). -/
def load_public_config : DatumLoadConfig :=
  { csv_path := [stagingRef, .lit "/anonymized_trips.csv"]
    db_conn_id := "phl-warehouse-staging"
    db_table_name := "taxi_trips" }

/-- The templated configuration values of each task, transcribed from the
operator declarations in the source file.  Constant strings are single
literal parts; every `xcom_pull("staging")` occurrence is a
reference part. -/
def templatesOf : Task → List Template
  | .staging => []
  | .wait_for_verifone => [[.lit "/Taxi/verifone/*"]]
  | .wait_for_cmt => [[.lit "/Taxi/cmt/*"]]
  | .download_verifone =>
      [[.lit "/Taxi/verifone"], [stagingRef, .lit "/input/verifone"]]
  | .download_cmt =>
      [[.lit "/Taxi/cmt"], [stagingRef, .lit "/input/cmt"]]
  | .unzip_cmt =>
      [[.lit "for f in $(ls ", stagingRef, .lit "/input/cmt/*.zip);   do unzip $f -d ", stagingRef, .lit "/input/cmt/; done"]]
  | .unzip_verifone =>
      [[.lit "for f in $(ls ", stagingRef, .lit "/input/verifone/*.zip);   do unzip $f -d ", stagingRef, .lit "/input/verifone/; done"]]
  | .download_hexbins =>
      [[.lit "wget https://github.com/CityOfPhiladelphia/trip-data-pipeline/raw/master/geo/hexagons_20160919.geojson -O ", stagingRef, .lit "/input/hexbins.geojson"]]
  | .merge_and_norm =>
      [[.lit "taxitrips.py normalize  --verifone \"", stagingRef, .lit "/input/verifone/*.csv\"  --cmt \"", stagingRef, .lit "/input/cmt/*.csv\" > ", stagingRef, .lit "/merged_trips.csv"]]
  | .load_raw => [load_raw_config.csv_path]
  | .fuzzy_time_and_loc =>
      [[.lit "taxitrips.py fuzzy --regions ", stagingRef, .lit "/input/hexbins.geojson  ", stagingRef, .lit "/merged_trips.csv > ", stagingRef, .lit "/fuzzied_trips.csv"]]
  | .anonymize =>
      [[.lit "taxitrips.py anonymize   \"", stagingRef, .lit "/fuzzied_trips.csv\" > ", stagingRef, .lit "/anonymized_trips.csv"]]
  | .load_public => [load_public_config.csv_path]
  | .cleanup_staging => [[stagingRef]]

/-- The Run-Context references occurring in a template. -/
def refsIn (tpl : Template) : List (String × String) :=
  tpl.filterMap (fun p => match p with
    | .ref t k => some (t, k)
    | .lit _ => none)

/-- A nonempty directed path along a fixed edge list (at least one edge). -/
inductive ReachPlus {α : Type} (edges : List (α × α)) : α → α → Prop
  | single {a b : α} : (a, b) ∈ edges → ReachPlus edges a b
  | head {a b c : α} : (a, b) ∈ edges → ReachPlus edges b c →
      ReachPlus edges a c

/-- One expansion step of a forward-reachability frontier: keep the set and
add the targets of all edges whose source is already in the set. -/
def reachStep (edges : List (Task × Task)) (S : List Task) : List Task :=
  S ++ (edges.filter (fun e => decide (e.1 ∈ S))).map (·.2)

/-- Iterate a function `n` times. -/
def iterApply {α : Type} (g : α → α) (a : α) : Nat → α
  | 0 => a
  | n + 1 => g (iterApply g a n)

/-- Executable forward reachability (one or more edges) along `edges`. -/
def reachB (edges : List (Task × Task)) (a b : Task) : Bool :=
  b ∈ iterApply (reachStep edges)
      ((edges.filter (fun e => decide (e.1 = a))).map (·.2)) edges.length

/-- Modelled from the spec (§4.1, §7): the error with which `Validate()`
fails, naming an offending task; graph validation is not implemented in
the repository source. -/
structure CycleError (α : Type) where
  node : α
  deriving DecidableEq

/-- A task graph: typed nodes plus directed edges (spec §3). -/
structure TaskGraph (α : Type) where
  nodes : List α
  edges : List (α × α)

/-- The members of `remaining` with no incoming edge from `remaining`:
the nodes removable by one round of topological sorting. -/
def sources {α : Type} [DecidableEq α] (edges : List (α × α))
    (remaining : List α) : List α :=
  remaining.filter (fun n =>
    ! edges.any (fun e => decide (e.2 = n) && decide (e.1 ∈ remaining)))

/-- Modelled from the spec (§4.1): cycle detection via topological sort
(Kahn's algorithm): repeatedly remove every task with no incoming edge
among the remaining ones; if at some point none is removable while tasks
remain, fail with a `CycleError` naming one of them. -/
def kahn {α : Type} [DecidableEq α] (edges : List (α × α)) :
    Nat → List α → Except (CycleError α) Unit
  | _, [] => .ok ()
  | 0, n :: _ => .error ⟨n⟩
  | fuel + 1, n :: rest =>
    if (sources edges (n :: rest)).isEmpty then .error ⟨n⟩
    else kahn edges fuel
      ((n :: rest).filter (fun x => !(decide (x ∈ sources edges (n :: rest)))))

/-- Modelled from the spec (§4.1): `Validate() -> error`, succeeding
exactly when topological sorting consumes every node. -/
def validate {α : Type} [DecidableEq α] (G : TaskGraph α) :
    Except (CycleError α) Unit :=
  kahn G.edges G.nodes.length G.nodes

/-- A graph contains a cycle when some node has a nonempty path to
itself. -/
def HasCycle {α : Type} (G : TaskGraph α) : Prop :=
  ∃ a, ReachPlus G.edges a a

/-- The task graph declared by the pipeline source. -/
def pipelineGraph : TaskGraph Task := ⟨allTasks, pipelineEdges⟩

/-- Terminal execution states of a task within a completed run
(spec §4.5). -/
inductive TaskState
  | succeeded
  | failed
  | skipped
  deriving DecidableEq, Fintype

/-- Modelled from the spec (§3, §4.5): the scheduler is not implemented
in the repository source; a terminal state assignment of a completed run
is consistent when a task is `skipped` exactly when some direct upstream
task is `failed` or `skipped`, and a task whose upstream tasks all
succeeded executes and ends `succeeded` or `failed`. -/
def Consistent (f : Task → TaskState) : Prop :=
  ∀ t : Task, f t = .skipped ↔
    ∃ u : Task, (u, t) ∈ pipelineEdges ∧ (f u = .failed ∨ f u = .skipped)

instance (f : Task → TaskState) : Decidable (Consistent f) := by
  unfold Consistent; infer_instance

/-- The run outcome in which the `wait_for_cmt` sensor fails (times out)
while the verifone branch runs to success: every task downstream of the
failure is skipped. -/
def cmtTimeoutRun : Task → TaskState
  | .staging => .succeeded
  | .wait_for_verifone => .succeeded
  | .wait_for_cmt => .failed
  | .download_verifone => .succeeded
  | .unzip_verifone => .succeeded
  | _ => .skipped

/-- A topological rank for the pipeline graph: every declared edge
strictly increases it. -/
def rank : Task → Nat
  | .staging => 0
  | .wait_for_verifone => 1
  | .wait_for_cmt => 1
  | .download_verifone => 2
  | .download_cmt => 2
  | .unzip_cmt => 3
  | .unzip_verifone => 3
  | .merge_and_norm => 4
  | .load_raw => 5
  | .download_hexbins => 5
  | .fuzzy_time_and_loc => 6
  | .anonymize => 7
  | .load_public => 8
  | .cleanup_staging => 9

/-- Scheduler events of a run: a task starting, finishing (successfully
or not), or being marked skipped (spec §4.5). -/
inductive Event
  | started (t : Task)
  | finished (t : Task) (ok : Bool)
  | skipped (t : Task)
  deriving DecidableEq

/-- Modelled from the spec (§3, §4.5, §5): the scheduler is not
implemented in the repository source; this relation says whether event
`e` may occur after the history `σ` (most recent event first).  A task
starts only when every direct upstream task has finished successfully
and it has not already started or been skipped; it finishes only once,
after starting; it is marked skipped only when some direct upstream task
failed or was skipped. -/
def Allowed (σ : List Event) : Event → Prop
  | .started t => (∀ u ∈ upstreams t, Event.finished u true ∈ σ) ∧
      Event.started t ∉ σ ∧ Event.skipped t ∉ σ
  | .finished t _ => Event.started t ∈ σ ∧ ∀ b, Event.finished t b ∉ σ
  | .skipped t =>
      (∃ u ∈ upstreams t, Event.finished u false ∈ σ ∨
        Event.skipped u ∈ σ) ∧
      Event.started t ∉ σ ∧ Event.skipped t ∉ σ

/-- A valid trace of the scheduler, newest event first: every event was
allowed by the history preceding it. -/
def Valid : List Event → Prop
  | [] => True
  | e :: σ => Allowed σ e ∧ Valid σ

instance instDecidableAllowed (σ : List Event) :
    (e : Event) → Decidable (Allowed σ e)
  | .started t => inferInstanceAs (Decidable
      ((∀ u ∈ upstreams t, Event.finished u true ∈ σ) ∧
        Event.started t ∉ σ ∧ Event.skipped t ∉ σ))
  | .finished t _ => inferInstanceAs (Decidable
      (Event.started t ∈ σ ∧ ∀ b, Event.finished t b ∉ σ))
  | .skipped t => inferInstanceAs (Decidable
      ((∃ u ∈ upstreams t, Event.finished u false ∈ σ ∨
          Event.skipped u ∈ σ) ∧
        Event.started t ∉ σ ∧ Event.skipped t ∉ σ))

instance instDecidableValid : (σ : List Event) → Decidable (Valid σ)
  | [] => .isTrue trivial
  | e :: σ =>
    haveI := instDecidableValid σ
    inferInstanceAs (Decidable (Allowed σ e ∧ Valid σ))

/-- Modelled from the spec (§4.2, §7): the error kinds surfaced by the
Run Context, which is not implemented in the repository source. -/
inductive CtxError
  | duplicateKey
  | unresolvedReference
  deriving DecidableEq

/-- Modelled from the spec (§3): the Run Context is a mapping from
(task name, key) to value, append-only within a run; represented as an
association list, newest entry first. -/
abbrev RunCtx := List ((String × String) × String)

/-- Look up the value stored for `(t, k)` in a Run Context. -/
def ctxLookup : RunCtx → String → String → Option String
  | [], _, _ => none
  | ((t', k'), v) :: rest, t, k =>
    if t' = t ∧ k' = k then some v else ctxLookup rest t k

/-- Modelled from the spec (§4.2): `Put(task, key, value)` fails with
`DuplicateKeyError` if `(task, key)` was already written; otherwise it
appends the new entry. -/
def Put (ctx : RunCtx) (t k v : String) : Except CtxError RunCtx :=
  match ctxLookup ctx t k with
  | some _ => .error .duplicateKey
  | none => .ok (((t, k), v) :: ctx)

/-- Modelled from the spec (§4.2): `Get(task, key)` fails with
`UnresolvedReferenceError` if `(task, key)` has not yet been written. -/
def Get (ctx : RunCtx) (t k : String) : Except CtxError String :=
  match ctxLookup ctx t k with
  | some v => .ok v
  | none => .error .unresolvedReference

/-- Modelled from the spec (§4.2, §9): `ResolveTemplate` substitutes every
`ref(taskName, key)` occurrence of a parsed template with
`Get(taskName, key)` and concatenates the pieces; a failing `Get`
fails the whole resolution. -/
def ResolveTemplate (ctx : RunCtx) : Template → Except CtxError String
  | [] => .ok ""
  | .lit s :: rest => (ResolveTemplate ctx rest).map (fun r => s ++ r)
  | .ref t k :: rest =>
    match Get ctx t k with
    | .ok v => (ResolveTemplate ctx rest).map (fun r => v ++ r)
    | .error e => .error e

/-- Result of a sensor execution. -/
inductive SensorResult
  | Satisfied
  | TimedOut
  deriving DecidableEq

/-- Modelled from the spec (§4.3): the Sensor Runner's polling loop,
which is not implemented in the repository source.  The predicate is
indexed by poll count: evaluation `k` occurs at elapsed time
`k * interval`.  The runner evaluates immediately; on a true evaluation
it returns `Satisfied`; otherwise it suspends for `interval` and, if the
elapsed time now exceeds `timeout`, returns `TimedOut`, else
re-evaluates.  The pair's second component counts the evaluations made.
The structural fuel is supplied by `sensorRun` and, for a positive
interval, never runs out before the algorithm's own exit. -/
def sensorLoop (pred : Nat → Bool) (interval timeout : Nat) :
    Nat → Nat → SensorResult × Nat
  | 0, k => (.TimedOut, k)
  | fuel + 1, k =>
    if pred k then (.Satisfied, k + 1)
    else if timeout < (k + 1) * interval then (.TimedOut, k + 1)
    else sensorLoop pred interval timeout fuel (k + 1)

/-- Modelled from the spec (§4.3):
`Run(predicate, pollInterval, timeout) -> Satisfied | TimedOut`. -/
def sensorRun (pred : Nat → Bool) (interval timeout : Nat) :
    SensorResult × Nat :=
  sensorLoop pred interval timeout (timeout / interval + 1) 0

theorem mem_upstreams {u t : Task} :
    u ∈ upstreams t ↔ (u, t) ∈ pipelineEdges := by
  constructor
  · intro h
    rcases List.mem_map.mp h with ⟨e, he, hu⟩
    rcases List.mem_filter.mp he with ⟨hmem, hsnd⟩
    have : e.2 = t := of_decide_eq_true hsnd
    rcases e with ⟨a, b⟩
    simp only at hu this
    subst hu; subst this; exact hmem
  · intro h
    exact List.mem_map.mpr ⟨(u, t), List.mem_filter.mpr ⟨h, by simp⟩, rfl⟩

/-- Appending one edge to the end of a path. -/
theorem ReachPlus.tail_edge {α : Type} {edges : List (α × α)} {a b c : α}
    (h : ReachPlus edges a b) (he : (b, c) ∈ edges) : ReachPlus edges a c := by
  induction h with
  | single h => exact .head h (.single he)
  | head h _ ih => exact .head h (ih he)

/-- Every task in the iterated reachability frontier started from the
successors of `a` is reachable from `a`. -/
theorem reach_iter_sound (edges : List (Task × Task)) (a : Task) :
    ∀ n x, x ∈ iterApply (reachStep edges)
        ((edges.filter (fun e => decide (e.1 = a))).map (·.2)) n →
      ReachPlus edges a x := by
  intro n
  induction n with
  | zero =>
    intro x hx
    rcases List.mem_map.mp hx with ⟨e, he, hx⟩
    rcases List.mem_filter.mp he with ⟨hmem, hfst⟩
    have : e.1 = a := of_decide_eq_true hfst
    rcases e with ⟨p, q⟩
    simp only at hx this
    subst hx; subst this
    exact .single hmem
  | succ n ih =>
    intro x hx
    rcases List.mem_append.mp hx with h | h
    · exact ih x h
    · rcases List.mem_map.mp h with ⟨e, he, hx⟩
      rcases List.mem_filter.mp he with ⟨hmem, hfst⟩
      have hsrc : e.1 ∈ iterApply (reachStep edges)
          ((edges.filter (fun e => decide (e.1 = a))).map (·.2)) n :=
        of_decide_eq_true hfst
      have := ih e.1 hsrc
      subst hx
      exact this.tail_edge (by rcases e with ⟨p, q⟩; exact hmem)

/-- If the executable reachability check succeeds, there is a path. -/
theorem reachB_sound {edges : List (Task × Task)} {a b : Task}
    (h : reachB edges a b = true) : ReachPlus edges a b := by
  have := of_decide_eq_true h
  exact reach_iter_sound edges a edges.length b this

/-- Claim C8: in the pipeline graph, `merge_and_norm` has exactly the two
upstream tasks `unzip_cmt` and `unzip_verifone` and exactly the two
downstream tasks `load_raw` and `download_hexbins`, and `anonymize` is a
join whose upstream set is exactly `load_raw` and `fuzzy_time_and_loc`. -/
theorem merge_anonymize_degrees :
    upstreams .merge_and_norm = [.unzip_cmt, .unzip_verifone] ∧
    downstreams .merge_and_norm = [.load_raw, .download_hexbins] ∧
    upstreams .anonymize = [.load_raw, .fuzzy_time_and_loc] ∧
    (upstreams .merge_and_norm).length = 2 ∧
    (downstreams .merge_and_norm).length = 2 ∧
    (upstreams .anonymize).length = 2 := by
  refine ⟨by decide, by decide, by decide, by decide, by decide, by decide⟩

/-- Claim C10: `load_raw` and `load_public` declare the same database
connection id `phl-warehouse-staging` and the same destination table
name `taxi_trips`; the raw and anonymized loads target the identical
table. -/
theorem load_tables_identical :
    load_raw_config.db_conn_id = "phl-warehouse-staging" ∧
    load_public_config.db_conn_id = "phl-warehouse-staging" ∧
    load_raw_config.db_table_name = "taxi_trips" ∧
    load_public_config.db_table_name = "taxi_trips" ∧
    load_raw_config.db_conn_id = load_public_config.db_conn_id ∧
    load_raw_config.db_table_name = load_public_config.db_table_name := by
  refine ⟨rfl, rfl, rfl, rfl, rfl, rfl⟩

theorem resolve_append {ctx : RunCtx} :
    ∀ (xs ys : Template) (a b : String),
      ResolveTemplate ctx xs = .ok a → ResolveTemplate ctx ys = .ok b →
      ResolveTemplate ctx (xs ++ ys) = .ok (a ++ b) := by
  intro xs
  induction xs with
  | nil =>
    intro ys a b ha hb
    have : a = "" := by
      simp only [ResolveTemplate] at ha
      exact (Except.ok.injEq _ _).mp ha.symm
    subst this
    simpa [String.empty_append] using hb
  | cons p rest ih =>
    intro ys a b ha hb
    cases p with
    | lit s =>
      simp only [ResolveTemplate] at ha
      cases hr : ResolveTemplate ctx rest with
      | error e => rw [hr] at ha; cases ha
      | ok a' =>
        rw [hr] at ha
        simp only [Except.map] at ha
        have haa : a = s ++ a' := ((Except.ok.injEq _ _).mp ha).symm
        subst haa
        have hres := ih ys a' b hr hb
        simp only [List.cons_append, ResolveTemplate, List.append_eq]
        rw [hres]
        simp only [Except.map, String.append_assoc]
    | ref t k =>
      simp only [ResolveTemplate] at ha
      cases hg : Get ctx t k with
      | error e => rw [hg] at ha; cases ha
      | ok v =>
        rw [hg] at ha
        cases hr : ResolveTemplate ctx rest with
        | error e => rw [hr] at ha; cases ha
        | ok a' =>
          rw [hr] at ha
          simp only [Except.map] at ha
          have haa : a = v ++ a' := ((Except.ok.injEq _ _).mp ha).symm
          subst haa
          have hres := ih ys a' b hr hb
          simp only [List.cons_append, ResolveTemplate, hg, List.append_eq]
          rw [hres]
          simp only [Except.map, String.append_assoc]

/-- Claim C6: round-trip through the Run Context.  After a successful
`Put(t, k, v)`, `Get(t, k)` returns exactly `v`, and resolving any
template containing the reference `ref(t, k)` substitutes exactly `v`
at that occurrence. -/
theorem run_context_round_trip (ctx ctx' : RunCtx) (t k v : String)
    (hput : Put ctx t k v = .ok ctx') :
    Get ctx' t k = .ok v ∧
    ∀ (pre post : Template) (s1 s2 : String),
      ResolveTemplate ctx' pre = .ok s1 →
      ResolveTemplate ctx' post = .ok s2 →
      ResolveTemplate ctx' (pre ++ .ref t k :: post) = .ok (s1 ++ v ++ s2) := by
  have hctx' : ctx' = ((t, k), v) :: ctx := by
    unfold Put at hput
    cases h : ctxLookup ctx t k with
    | some w => rw [h] at hput; cases hput
    | none => rw [h] at hput; exact (Except.ok.inj hput).symm
  subst hctx'
  have hget : Get (((t, k), v) :: ctx) t k = .ok v := by
    simp [Get, ctxLookup]
  refine ⟨hget, ?_⟩
  intro pre post s1 s2 hpre hpost
  have hmid : ResolveTemplate (((t, k), v) :: ctx) [TemplatePart.ref t k]
      = .ok v := by
    simp only [ResolveTemplate, hget, Except.map, String.append_empty]
  have h1 : ResolveTemplate (((t, k), v) :: ctx)
      ([TemplatePart.ref t k] ++ post) = .ok (v ++ s2) :=
    resolve_append _ _ _ _ hmid hpost
  have h2 := resolve_append pre ([TemplatePart.ref t k] ++ post) s1 (v ++ s2)
    hpre h1
  simpa [String.append_assoc] using h2

theorem run_context_round_trip_witness :
    Get [(("download", "path"), "/tmp/x")] "download" "path"
      = .ok "/tmp/x" ∧
    ResolveTemplate [(("download", "path"), "/tmp/x")]
      ([] ++ TemplatePart.ref "download" "path" :: [])
      = .ok ("" ++ "/tmp/x" ++ "") := by
  have h := run_context_round_trip [] [(("download", "path"), "/tmp/x")]
    "download" "path" "/tmp/x" rfl
  exact ⟨h.1, h.2 [] [] "" "" rfl rfl⟩

/-- Claim C7: the Run Context is append-only; a second `Put` to an
already-written `(task, key)` pair fails with `DuplicateKeyError` and
the previously stored value is unchanged. -/
theorem run_context_duplicate_put (ctx ctx' : RunCtx) (t k v w : String)
    (hput : Put ctx t k v = .ok ctx') :
    Put ctx' t k w = .error .duplicateKey ∧ Get ctx' t k = .ok v := by
  have hctx' : ctx' = ((t, k), v) :: ctx := by
    unfold Put at hput
    cases h : ctxLookup ctx t k with
    | some u => rw [h] at hput; cases hput
    | none => rw [h] at hput; exact (Except.ok.inj hput).symm
  subst hctx'
  constructor
  · simp [Put, ctxLookup]
  · simp [Get, ctxLookup]

theorem run_context_duplicate_put_witness :
    Put [(("download", "path"), "/tmp/x")] "download" "path" "/tmp/y"
      = .error .duplicateKey ∧
    Get [(("download", "path"), "/tmp/x")] "download" "path"
      = .ok "/tmp/x" :=
  run_context_duplicate_put [] [(("download", "path"), "/tmp/x")]
    "download" "path" "/tmp/x" "/tmp/y" rfl

theorem sensorLoop_satisfied {pred : Nat → Bool} {interval timeout k : Nat} :
    ∀ (fuel k0 : Nat), k0 ≤ k →
      (∀ j, k0 ≤ j → j < k → pred j = false) → pred k = true →
      k * interval ≤ timeout → k + 1 - k0 ≤ fuel →
      sensorLoop pred interval timeout fuel k0 = (.Satisfied, k + 1) := by
  intro fuel
  induction fuel with
  | zero => intro k0 hk0 _ _ _ hfuel; omega
  | succ fuel ih =>
    intro k0 hk0 hfalse htrue hbound hfuel
    rcases Nat.eq_or_lt_of_le hk0 with heq | hlt
    · subst heq
      simp only [sensorLoop, htrue, if_true]
    · have hf : pred k0 = false := hfalse k0 le_rfl hlt
      have hmul : (k0 + 1) * interval ≤ k * interval :=
        Nat.mul_le_mul_right interval hlt
      have hnot : ¬ timeout < (k0 + 1) * interval := by omega
      simp only [sensorLoop, hf, Bool.false_eq_true, if_false, hnot,
        ite_false]
      exact ih (k0 + 1) hlt (fun j h1 h2 => hfalse j (by omega) h2) htrue
        hbound (by omega)

theorem sensorLoop_timeout {pred : Nat → Bool} {interval timeout : Nat}
    (hpos : 0 < interval) (hfalse : ∀ j, pred j = false) :
    ∀ (fuel k0 : Nat), k0 + fuel = timeout / interval + 1 →
      sensorLoop pred interval timeout fuel k0
        = (.TimedOut, timeout / interval + 1) := by
  intro fuel
  induction fuel with
  | zero => intro k0 h; simp only [sensorLoop]; rw [Nat.add_zero] at h; rw [h]
  | succ fuel ih =>
    intro k0 h
    have hf : pred k0 = false := hfalse k0
    by_cases hend : k0 = timeout / interval
    · have hlt : timeout < (k0 + 1) * interval := by
        rw [← Nat.div_lt_iff_lt_mul hpos]; omega
      simp only [sensorLoop, hf, Bool.false_eq_true, if_false]
      rw [if_pos hlt, hend]
    · have hk0 : k0 < timeout / interval := by omega
      have hge : ¬ timeout < (k0 + 1) * interval := by
        rw [← Nat.div_lt_iff_lt_mul hpos]; omega
      simp only [sensorLoop, hf, Bool.false_eq_true, if_false]
      rw [if_neg hge]
      exact ih (k0 + 1) (by omega)

/-- Claim C5: the Sensor Runner evaluates the predicate immediately and then
once per poll interval; it returns `Satisfied` at the first true
evaluation, and `TimedOut` once the elapsed time exceeds the timeout
with the predicate never true, after exactly
`timeout / pollInterval + 1` evaluations; for the pipeline's sensors
(poll interval 12 hours, timeout 1 week) that is 15 evaluations. -/
theorem sensor_run_spec :
    (∀ (pred : Nat → Bool) (interval timeout k : Nat), 0 < interval →
      (∀ j, j < k → pred j = false) → pred k = true →
      k * interval ≤ timeout →
      sensorRun pred interval timeout = (.Satisfied, k + 1)) ∧
    (∀ (pred : Nat → Bool) (interval timeout : Nat), 0 < interval →
      (∀ j, pred j = false) →
      sensorRun pred interval timeout
        = (.TimedOut, timeout / interval + 1)) ∧
    sensorRun (fun _ => false) (60 * 60 * 12) (60 * 60 * 24 * 7)
      = (.TimedOut, 15) ∧
    60 * 60 * 24 * 7 / (60 * 60 * 12) + 1 = 15 := by
  refine ⟨?_, ?_, by decide, by decide⟩
  · intro pred interval timeout k hpos hfalse htrue hbound
    have hk : k ≤ timeout / interval :=
      (Nat.le_div_iff_mul_le hpos).mpr hbound
    exact sensorLoop_satisfied (timeout / interval + 1) 0 (Nat.zero_le k)
      (fun j _ h2 => hfalse j h2) htrue hbound (by omega)
  · intro pred interval timeout hpos hfalse
    exact sensorLoop_timeout hpos hfalse (timeout / interval + 1) 0
      (by omega)

theorem sensor_run_spec_witness :
    sensorRun (fun j => decide (j = 2)) 1 3 = (.Satisfied, 3) ∧
    sensorRun (fun _ => false) 1 3 = (.TimedOut, 4) := by
  constructor
  · exact sensor_run_spec.1 (fun j => decide (j = 2)) 1 3 2 (by decide)
      (by decide) (by decide) (by decide)
  · exact sensor_run_spec.2.1 (fun _ => false) 1 3 (by decide)
      (fun _ => rfl)

theorem rank_increase : ∀ e ∈ pipelineEdges, rank e.1 < rank e.2 := by
  decide

theorem skipped_has_failed_upstream {f : Task → TaskState}
    (hc : Consistent f) :
    ∀ (n : Nat) (t : Task), rank t ≤ n → f t = .skipped →
      ∃ u, ReachPlus pipelineEdges u t ∧ f u = .failed := by
  intro n
  induction n with
  | zero =>
    intro t hrank hskip
    rcases (hc t).mp hskip with ⟨u, hedge, _⟩
    have hr : rank u < rank t := rank_increase (u, t) hedge
    omega
  | succ n ih =>
    intro t hrank hskip
    rcases (hc t).mp hskip with ⟨u, hedge, hu⟩
    rcases hu with hu | hu
    · exact ⟨u, .single hedge, hu⟩
    · have hr : rank u < rank t := rank_increase (u, t) hedge
      rcases ih u (by omega) hu with ⟨w, hw, hwf⟩
      exact ⟨w, hw.tail_edge hedge, hwf⟩

/-- Claim C2: a task executes only if every direct upstream task succeeded; any
failed or skipped upstream task forces the task to be skipped; a skipped
task always has a failed transitive upstream (so tasks not reachable
from a failure run independently); concretely, a `wait_for_cmt` failure
skips `download_cmt`, `unzip_cmt` and `merge_and_norm` while the
verifone branch runs to success. -/
theorem skip_propagation_spec :
    (∀ (f : Task → TaskState) (t u : Task), Consistent f →
      (u, t) ∈ pipelineEdges → f t ≠ .skipped → f u = .succeeded) ∧
    (∀ (f : Task → TaskState) (t u : Task), Consistent f →
      (u, t) ∈ pipelineEdges → (f u = .failed ∨ f u = .skipped) →
      f t = .skipped) ∧
    (∀ (f : Task → TaskState) (t : Task), Consistent f → f t = .skipped →
      ∃ u, ReachPlus pipelineEdges u t ∧ f u = .failed) ∧
    (Consistent cmtTimeoutRun ∧ cmtTimeoutRun .wait_for_cmt = .failed ∧
      cmtTimeoutRun .download_cmt = .skipped ∧
      cmtTimeoutRun .unzip_cmt = .skipped ∧
      cmtTimeoutRun .merge_and_norm = .skipped ∧
      cmtTimeoutRun .wait_for_verifone = .succeeded ∧
      cmtTimeoutRun .download_verifone = .succeeded ∧
      cmtTimeoutRun .unzip_verifone = .succeeded) := by
  refine ⟨?_, ?_, ?_, by decide⟩
  · intro f t u hc hedge ht
    cases hu : f u with
    | succeeded => rfl
    | failed => exact absurd ((hc t).mpr ⟨u, hedge, Or.inl hu⟩) ht
    | skipped => exact absurd ((hc t).mpr ⟨u, hedge, Or.inr hu⟩) ht
  · intro f t u hc hedge hu
    exact (hc t).mpr ⟨u, hedge, hu⟩
  · intro f t hc hskip
    exact skipped_has_failed_upstream hc (rank t) t le_rfl hskip

theorem skip_propagation_spec_witness :
    Consistent cmtTimeoutRun ∧
    (Task.wait_for_cmt, Task.download_cmt) ∈ pipelineEdges ∧
    cmtTimeoutRun .download_cmt = .skipped :=
  ⟨by decide, by decide,
    skip_propagation_spec.2.1 cmtTimeoutRun .download_cmt .wait_for_cmt
      (by decide) (by decide) (Or.inl (by decide))⟩

/-- Claim C1 (the claim as stated fails on the code): the source wires
`cleanup_staging` as an ordinary downstream task of `load_public`
(line 147), so under the spec's own scheduler semantics teardown is NOT
executed on every error path: in every consistent run outcome in which
`wait_for_cmt` failed, `cleanup_staging` ends `skipped` — the
workspace-destroy task never executes. -/
theorem cleanup_skipped_when_cmt_fails (f : Task → TaskState)
    (hc : Consistent f) (hw : f .wait_for_cmt = .failed) :
    f .cleanup_staging = .skipped := by
  have h1 : f .download_cmt = .skipped :=
    (hc .download_cmt).mpr ⟨.wait_for_cmt, by decide, Or.inl hw⟩
  have h2 : f .unzip_cmt = .skipped :=
    (hc .unzip_cmt).mpr ⟨.download_cmt, by decide, Or.inr h1⟩
  have h3 : f .merge_and_norm = .skipped :=
    (hc .merge_and_norm).mpr ⟨.unzip_cmt, by decide, Or.inr h2⟩
  have h4 : f .load_raw = .skipped :=
    (hc .load_raw).mpr ⟨.merge_and_norm, by decide, Or.inr h3⟩
  have h5 : f .anonymize = .skipped :=
    (hc .anonymize).mpr ⟨.load_raw, by decide, Or.inr h4⟩
  have h6 : f .load_public = .skipped :=
    (hc .load_public).mpr ⟨.anonymize, by decide, Or.inr h5⟩
  exact (hc .cleanup_staging).mpr ⟨.load_public, by decide, Or.inr h6⟩

theorem cleanup_skipped_when_cmt_fails_witness :
    Consistent cmtTimeoutRun ∧ cmtTimeoutRun .wait_for_cmt = .failed ∧
    cmtTimeoutRun .cleanup_staging = .skipped :=
  ⟨by decide, by decide,
    cleanup_skipped_when_cmt_fails cmtTimeoutRun (by decide) (by decide)⟩

theorem valid_suffix : ∀ (σ₁ σ₂ : List Event), Valid (σ₁ ++ σ₂) →
    Valid σ₂ := by
  intro σ₁
  induction σ₁ with
  | nil => intro σ₂ h; exact h
  | cons e rest ih => intro σ₂ h; exact ih σ₂ h.2

theorem reachplus_last {α : Type} {edges : List (α × α)} {a b : α}
    (h : ReachPlus edges a b) :
    ∃ p, (p, b) ∈ edges ∧ (p = a ∨ ReachPlus edges a p) := by
  induction h with
  | single h => exact ⟨_, h, Or.inl rfl⟩
  | head hab _ ih =>
    rcases ih with ⟨p, hp, hcase⟩
    rcases hcase with rfl | hr
    · exact ⟨p, hp, Or.inr (.single hab)⟩
    · exact ⟨p, hp, Or.inr (.head hab hr)⟩

theorem staging_first :
    ∀ (n : Nat) (σ : List Event) (t : Task), σ.length ≤ n →
      Valid (Event.started t :: σ) →
      ReachPlus pipelineEdges .staging t →
      Event.finished .staging true ∈ σ := by
  intro n
  induction n with
  | zero =>
    intro σ t hlen hv hr
    have hσ : σ = [] := List.length_eq_zero.mp (Nat.le_zero.mp hlen)
    subst hσ
    rcases reachplus_last hr with ⟨p, hp, _⟩
    have hmem := hv.1.1 p (mem_upstreams.mpr hp)
    exact absurd hmem (List.not_mem_nil _)
  | succ n ih =>
    intro σ t hlen hv hr
    rcases reachplus_last hr with ⟨p, hp, hcase⟩
    have hfin : Event.finished p true ∈ σ := hv.1.1 p (mem_upstreams.mpr hp)
    rcases hcase with rfl | hreach
    · exact hfin
    · rcases List.append_of_mem hfin with ⟨σ₁, σ₂, rfl⟩
      have hv₂ : Valid (Event.finished p true :: σ₂) :=
        valid_suffix σ₁ _ hv.2
      have hstart : Event.started p ∈ σ₂ := hv₂.1.1
      rcases List.append_of_mem hstart with ⟨σ₃, σ₄, rfl⟩
      have hv₄ : Valid (Event.started p :: σ₄) := valid_suffix σ₃ _ hv₂.2
      have hlen₄ : σ₄.length ≤ n := by
        simp only [List.length_append, List.length_cons] at hlen
        omega
      have hfin₄ : Event.finished .staging true ∈ σ₄ :=
        ih σ₄ p hlen₄ hv₄ hreach
      exact List.mem_append_right _ (List.mem_cons_of_mem _
        (List.mem_append_right _ (List.mem_cons_of_mem _ hfin₄)))

/-- Claim C3: every task other than `staging` is a transitive downstream of
`staging`; in every valid schedule, `staging` has finished successfully
strictly before any other task starts; and, in general, a task never
starts before each of its upstream tasks has reached a terminal state. -/
theorem staging_precedes_all :
    (∀ t : Task, t ≠ .staging → ReachPlus pipelineEdges .staging t) ∧
    (∀ (σ : List Event) (t : Task), Valid (Event.started t :: σ) →
      t ≠ .staging → Event.finished .staging true ∈ σ) ∧
    (∀ (σ : List Event) (t u : Task), Valid (Event.started t :: σ) →
      (u, t) ∈ pipelineEdges →
      Event.finished u true ∈ σ ∨ Event.finished u false ∈ σ ∨
        Event.skipped u ∈ σ) := by
  have hreach : ∀ t : Task, t ≠ .staging →
      reachB pipelineEdges .staging t = true := by decide
  refine ⟨fun t ht => reachB_sound (hreach t ht), ?_, ?_⟩
  · intro σ t hv ht
    exact staging_first σ.length σ t le_rfl hv (reachB_sound (hreach t ht))
  · intro σ t u hv he
    exact Or.inl (hv.1.1 u (mem_upstreams.mpr he))

theorem staging_precedes_all_witness :
    Valid [Event.started .wait_for_cmt, Event.finished .staging true,
      Event.started .staging] ∧
    Event.finished Task.staging true ∈
      [Event.finished .staging true, Event.started .staging] ∧
    (Event.finished Task.staging true ∈
        [Event.finished .staging true, Event.started .staging] ∨
      Event.finished Task.staging false ∈
        [Event.finished .staging true, Event.started .staging] ∨
      Event.skipped Task.staging ∈
        [Event.finished .staging true, Event.started .staging]) :=
  ⟨by decide,
   staging_precedes_all.2.1
     [Event.finished .staging true, Event.started .staging]
     .wait_for_cmt (by decide) (by decide),
   staging_precedes_all.2.2
     [Event.finished .staging true, Event.started .staging]
     .wait_for_cmt .staging (by decide) (by decide)⟩

theorem mem_sources_iff {α : Type} [DecidableEq α] {edges : List (α × α)}
    {R : List α} {c : α} :
    c ∈ sources edges R ↔ c ∈ R ∧ ∀ p, (p, c) ∈ edges → p ∉ R := by
  unfold sources
  rw [List.mem_filter]
  constructor
  · rintro ⟨hcR, hq⟩
    refine ⟨hcR, fun p hp hpR => ?_⟩
    have hany : edges.any
        (fun e => decide (e.2 = c) && decide (e.1 ∈ R)) = true :=
      List.any_eq_true.mpr ⟨(p, c), hp, by simp [hpR]⟩
    rw [hany] at hq
    cases hq
  · rintro ⟨hcR, hnp⟩
    refine ⟨hcR, ?_⟩
    have hany : edges.any
        (fun e => decide (e.2 = c) && decide (e.1 ∈ R)) = false := by
      rw [List.any_eq_false]
      rintro ⟨p, q⟩ hpq hb
      simp only [Bool.and_eq_true, decide_eq_true_eq] at hb
      exact hnp p (hb.1 ▸ hpq) hb.2
    rw [hany]
    rfl

theorem kahn_ok_excludes {α : Type} [DecidableEq α] {edges : List (α × α)}
    {P : α → Prop} (hne : ∃ a, P a)
    (hpred : ∀ c, P c → ∃ p, P p ∧ (p, c) ∈ edges) :
    ∀ (fuel : Nat) (remaining : List α), (∀ c, P c → c ∈ remaining) →
      ¬ kahn edges fuel remaining = .ok () := by
  intro fuel
  induction fuel with
  | zero =>
    intro remaining hsub hok
    rcases hne with ⟨a, ha⟩
    have haR := hsub a ha
    cases remaining with
    | nil => exact absurd haR (List.not_mem_nil a)
    | cons n rest => simp [kahn] at hok
  | succ fuel ih =>
    intro remaining hsub hok
    cases hrem : remaining with
    | nil =>
      rcases hne with ⟨a, ha⟩
      have haR := hsub a ha
      rw [hrem] at haR
      exact absurd haR (List.not_mem_nil a)
    | cons n rest =>
      rw [hrem] at hok hsub
      simp only [kahn] at hok
      by_cases hs : (sources edges (n :: rest)).isEmpty = true
      · rw [if_pos hs] at hok; cases hok
      · rw [if_neg hs] at hok
        refine ih _ ?_ hok
        intro c hc
        have hcR := hsub c hc
        refine List.mem_filter.mpr ⟨hcR, ?_⟩
        simp only [Bool.not_eq_true', decide_eq_false_iff_not]
        intro hcs
        rcases mem_sources_iff.mp hcs with ⟨_, hnp⟩
        rcases hpred c hc with ⟨p, hPp, hpe⟩
        exact hnp p hpe (hsub p hPp)

theorem kahn_error_stuck {α : Type} [DecidableEq α] {edges : List (α × α)} :
    ∀ (fuel : Nat) (remaining : List α), remaining.length ≤ fuel →
      ¬ kahn edges fuel remaining = .ok () →
      ∃ R : List α, R ≠ [] ∧ ∀ n ∈ R, ∃ p, p ∈ R ∧ (p, n) ∈ edges := by
  intro fuel
  induction fuel with
  | zero =>
    intro remaining hlen hok
    have hnil : remaining = [] := List.length_eq_zero.mp (Nat.le_zero.mp hlen)
    subst hnil
    exact absurd rfl hok
  | succ fuel ih =>
    intro remaining hlen hok
    cases hrem : remaining with
    | nil => rw [hrem] at hok; exact absurd rfl hok
    | cons n rest =>
      rw [hrem] at hok hlen
      simp only [kahn] at hok
      by_cases hs : (sources edges (n :: rest)).isEmpty = true
      · refine ⟨n :: rest, by simp, ?_⟩
        intro m hm
        have hms : m ∉ sources edges (n :: rest) := by
          rw [List.isEmpty_iff] at hs
          rw [hs]
          exact List.not_mem_nil m
        by_contra hcon
        push_neg at hcon
        exact hms (mem_sources_iff.mpr
          ⟨hm, fun p hpe hpR => hcon p hpR hpe⟩)
      · rw [if_neg hs] at hok
        have hsne : sources edges (n :: rest) ≠ [] := by
          intro h
          exact hs (List.isEmpty_iff.mpr h)
        obtain ⟨x, hx⟩ : ∃ x, x ∈ sources edges (n :: rest) := by
          cases hsrc : sources edges (n :: rest) with
          | nil => exact absurd hsrc hsne
          | cons y ys => exact ⟨y, List.mem_cons_self y ys⟩
        have hxR : x ∈ n :: rest := (mem_sources_iff.mp hx).1
        have hflt : ((n :: rest).filter
            (fun z => !(decide (z ∈ sources edges (n :: rest))))).length
            < (n :: rest).length :=
          List.length_filter_lt_length_iff_exists.mpr
            ⟨x, hxR, by simp [hx]⟩
        exact ih _ (by simp only [List.length_cons] at hflt hlen ⊢; omega) hok

theorem stuck_cycle {α : Type} [DecidableEq α] {edges : List (α × α)}
    {R : List α} (hne : R ≠ [])
    (hcl : ∀ n ∈ R, ∃ p, p ∈ R ∧ (p, n) ∈ edges) :
    ∃ a, ReachPlus edges a a := by
  classical
  choose f hfR hfE using hcl
  obtain ⟨a0, ha0⟩ : ∃ a, a ∈ R := by
    cases R with
    | nil => exact absurd rfl hne
    | cons x xs => exact ⟨x, List.mem_cons_self x xs⟩
  set g : α → α := fun x => if h : x ∈ R then f x h else x with hg
  set seq : Nat → α := fun n => iterApply g a0 n with hseq
  have hmem : ∀ n, seq n ∈ R := by
    intro n
    induction n with
    | zero => exact ha0
    | succ n ihn =>
      show g (iterApply g a0 n) ∈ R
      rw [hg]
      simp only
      rw [dif_pos ihn]
      exact hfR _ ihn
  have hedge : ∀ n, (seq (n + 1), seq n) ∈ edges := by
    intro n
    have hn := hmem n
    show (g (iterApply g a0 n), iterApply g a0 n) ∈ edges
    rw [hg]
    simp only
    rw [dif_pos hn]
    exact hfE _ hn
  have hreach : ∀ i j, i < j → ReachPlus edges (seq j) (seq i) := by
    intro i j
    induction j with
    | zero => intro h; exact absurd h (Nat.not_lt_zero i)
    | succ j ihj =>
      intro hij
      rcases Nat.lt_succ_iff_lt_or_eq.mp hij with h | h
      · exact ReachPlus.head (hedge j) (ihj h)
      · subst h; exact ReachPlus.single (hedge i)
  have hmaps : ∀ n ∈ Finset.range (R.toFinset.card + 1),
      seq n ∈ R.toFinset := by
    intro n _
    exact List.mem_toFinset.mpr (hmem n)
  have hcard : R.toFinset.card < (Finset.range (R.toFinset.card + 1)).card := by
    rw [Finset.card_range]
    omega
  obtain ⟨i, _, j, _, hij, heq⟩ :=
    Finset.exists_ne_map_eq_of_card_lt_of_maps_to hcard hmaps
  rcases Nat.lt_or_ge i j with h | h
  · have hr := hreach i j h
    rw [← heq] at hr
    exact ⟨seq i, hr⟩
  · have hr := hreach j i (by omega)
    rw [heq] at hr
    exact ⟨seq j, hr⟩

/-- Claim C4: for every task graph whose edge sources are declared nodes,
`Validate()` succeeds exactly when the graph is acyclic (failures being
`CycleError` values by construction); in particular the pipeline's
declared graph validates successfully. -/
theorem validate_iff_acyclic :
    (∀ (α : Type) (inst : DecidableEq α) (G : TaskGraph α),
      (∀ e ∈ G.edges, e.1 ∈ G.nodes) →
      (@validate α inst G = .ok () ↔ ¬ HasCycle G)) ∧
    validate pipelineGraph = .ok () := by
  constructor
  · intro α inst G hend
    constructor
    · intro hok hcyc
      rcases hcyc with ⟨a, hcy⟩
      have hok' : kahn G.edges G.nodes.length G.nodes = .ok () := hok
      refine kahn_ok_excludes
        (P := fun x => ReachPlus G.edges a x ∧ ReachPlus G.edges x a)
        ⟨a, hcy, hcy⟩ ?_ G.nodes.length G.nodes ?_ hok'
      · rintro c ⟨hac, hca⟩
        rcases reachplus_last hac with ⟨p, hpc, hcase⟩
        refine ⟨p, ⟨?_, ReachPlus.head hpc hca⟩, hpc⟩
        rcases hcase with rfl | h
        · exact hcy
        · exact h
      · rintro c ⟨_, hca⟩
        have hout : ∃ x, (c, x) ∈ G.edges := by
          cases hca with
          | single h => exact ⟨_, h⟩
          | head h _ => exact ⟨_, h⟩
        rcases hout with ⟨x, hx⟩
        exact hend (c, x) hx
    · intro hnc
      by_contra hok
      rcases kahn_error_stuck G.nodes.length G.nodes le_rfl hok with
        ⟨R, hR1, hR2⟩
      exact hnc (stuck_cycle hR1 hR2)
  · rfl

theorem validate_iff_acyclic_witness :
    (validate pipelineGraph = .ok () ↔ ¬ HasCycle pipelineGraph) ∧
    validate pipelineGraph = .ok () :=
  ⟨validate_iff_acyclic.1 Task inferInstance pipelineGraph (by decide),
   validate_iff_acyclic.2⟩

theorem refsIn_cons_lit (s : String) (rest : Template) :
    refsIn (.lit s :: rest) = refsIn rest := rfl

theorem refsIn_cons_ref (t k : String) (rest : Template) :
    refsIn (.ref t k :: rest) = (t, k) :: refsIn rest := rfl

theorem resolve_ok_of_refs {ctx : RunCtx} :
    ∀ (tpl : Template),
      (∀ r ∈ refsIn tpl, ∃ v, Get ctx r.1 r.2 = .ok v) →
      ∃ s, ResolveTemplate ctx tpl = .ok s := by
  intro tpl
  induction tpl with
  | nil => intro _; exact ⟨"", rfl⟩
  | cons p rest ih =>
    intro h
    cases p with
    | lit s =>
      rcases ih (fun r hr => h r (by rw [refsIn_cons_lit]; exact hr)) with
        ⟨s', hs'⟩
      exact ⟨s ++ s', by simp only [ResolveTemplate, hs', Except.map]⟩
    | ref t k =>
      rcases h (t, k) (by rw [refsIn_cons_ref]; exact List.mem_cons_self _ _)
        with ⟨v, hv⟩
      rcases ih (fun r hr =>
          h r (by rw [refsIn_cons_ref]; exact List.mem_cons_of_mem _ hr)) with
        ⟨s', hs'⟩
      exact ⟨v ++ s', by simp only [ResolveTemplate, hv, hs', Except.map]⟩

/-- Claim C9: every template reference in the pipeline's task configurations
pulls from the `staging` task's published `path` entry; `staging` is a
transitive upstream of every task whose configuration contains a
reference; and once `staging` has published that entry, template
resolution of every task configuration succeeds, so no `Get` hits the
`UnresolvedReferenceError` branch under dependency-ordered scheduling. -/
theorem staging_refs_safety :
    (∀ (t : Task) (tpl : Template), tpl ∈ templatesOf t →
      ∀ r ∈ refsIn tpl, r = ("staging", "path")) ∧
    (∀ t : Task, (∃ tpl ∈ templatesOf t, refsIn tpl ≠ []) →
      ReachPlus pipelineEdges .staging t) ∧
    (∀ (ctx : RunCtx) (v : String),
      ctxLookup ctx "staging" "path" = some v →
      ∀ (t : Task) (tpl : Template), tpl ∈ templatesOf t →
      ∃ s, ResolveTemplate ctx tpl = .ok s) := by
  have hall : ∀ (t : Task) (tpl : Template), tpl ∈ templatesOf t →
      ∀ r ∈ refsIn tpl, r = ("staging", "path") := by decide
  have hreach : ∀ t : Task, (∃ tpl ∈ templatesOf t, refsIn tpl ≠ []) →
      reachB pipelineEdges .staging t = true := by decide
  refine ⟨hall, fun t ht => reachB_sound (hreach t ht), ?_⟩
  intro ctx v hv t tpl htpl
  apply resolve_ok_of_refs
  intro r hr
  have hr' : r = ("staging", "path") := hall t tpl htpl r hr
  subst hr'
  exact ⟨v, by simp [Get, hv]⟩

theorem staging_refs_safety_witness :
    ∃ s, ResolveTemplate [(("staging", "path"), "/tmp/ws")]
      [stagingRef] = .ok s :=
  staging_refs_safety.2.2 [(("staging", "path"), "/tmp/ws")] "/tmp/ws"
    rfl .cleanup_staging [stagingRef] (by decide)

end Etl
